import Mathlib

/-!
Verification of the Email-Security-System repository (Python).

The development shallowly embeds the risk-scoring engine of
`enhanced_detector.py` and the URL extractor of `gmail_url_extractor.py`
into Lean:

* Python strings are modelled as `String` / `List Char` (the inputs of
  interest are ASCII; `str.lower` is modelled by `Char.toLower`, which
  agrees with Python on ASCII).
* Python `int` is modelled by `Int`; the similarity ratio computed by
  `difflib.SequenceMatcher.ratio()` (an exact rational `2*M/T` evaluated
  in IEEE doubles by Python) is modelled exactly in `ℚ`.
* `urllib.parse.urlparse` is modelled by `urlparse` below, following
  CPython's `urlsplit`: scheme split at the first `:` when the prefix is a
  valid scheme, `//`-netloc up to the first of `/?#`, fragment then query
  split on the remainder, `;params` split off the path, and the
  `ValueError("Invalid IPv6 URL")` raised on mismatched brackets in the
  netloc modelled via `Except`.  Exceptions caught by the Python checks
  are modelled by the `Except.error` branch.
* Fuel-based recursion is used where the recursion is not structural
  (`difflib` block matching, regex scanning); the fuel supplied by the
  wrapper definitions is always sufficient, as noted at each wrapper.
-/

/-! ### Generic string helpers (Python string primitives on `List Char`) -/

/-- Boolean prefix test on character lists (Python `str.startswith`). -/
def leadsWith : List Char → List Char → Bool
  | [], _ => true
  | _ :: _, [] => false
  | p :: ps, c :: cs => p == c && leadsWith ps cs

/-- Boolean suffix test on character lists (Python `str.endswith`). -/
def endsIn (pat s : List Char) : Bool :=
  leadsWith pat.reverse s.reverse

/-- Boolean substring test on character lists (Python `in` on strings). -/
def hasSub : List Char → List Char → Bool
  | pat, [] => leadsWith pat []
  | pat, c :: t => leadsWith pat (c :: t) || hasSub pat t

/-- Number of occurrences of a character (Python `str.count` for a single
character). -/
def countChar (c : Char) (s : List Char) : Nat :=
  (s.filter (fun d => d == c)).length

/-- ASCII lowercasing of a character list (Python `str.lower` on ASCII). -/
def pyLowerL (s : List Char) : List Char :=
  s.map Char.toLower

/-- Python `str.strip()`: remove whitespace from both ends. -/
def pyStrip (s : List Char) : List Char :=
  ((s.dropWhile Char.isWhitespace).reverse.dropWhile Char.isWhitespace).reverse

/-! ### Model of `urllib.parse.urlparse` (CPython `urlsplit` + params split) -/

/-- Characters allowed in a URL scheme after the first letter
(CPython `scheme_chars`). -/
def schemeChar (c : Char) : Bool :=
  c.isAlpha || c.isDigit || c == '+' || c == '-' || c == '.'

/-- The parsed components used by the detector (fragment is split off and
discarded, as no check reads it). -/
structure UrlParts where
  scheme : String
  netloc : String
  path : String
  query : String
deriving DecidableEq, Repr

/-- Model of `urllib.parse.urlsplit`: returns `Except.error` exactly where
CPython raises `ValueError("Invalid IPv6 URL")` (a `[` in the netloc without
`]`, or a `]` without `[`). -/
def urlsplitL (cs : List Char) : Except String UrlParts :=
  -- scheme split at the first ':' when the prefix is a valid scheme
  let before := cs.takeWhile (fun c => c ≠ ':')
  let after := cs.dropWhile (fun c => c ≠ ':')
  let hasScheme :=
    after ≠ [] ∧ before ≠ [] ∧
      (match before with | c :: _ => c.isAlpha | [] => false) = true ∧
      before.all schemeChar = true
  let (scheme, rest) :=
    if hasScheme then (pyLowerL before, after.drop 1) else ([], cs)
  -- netloc when the rest starts with '//': up to the first of '/', '?', '#'
  let stopNl := fun (c : Char) => c ≠ '/' ∧ c ≠ '?' ∧ c ≠ '#'
  if leadsWith ['/', '/'] rest then
    let nl := (rest.drop 2).takeWhile stopNl
    let rest2 := (rest.drop 2).dropWhile stopNl
    if ('[' ∈ nl ∧ ']' ∉ nl) ∨ (']' ∈ nl ∧ '[' ∉ nl) then
      Except.error "Invalid IPv6 URL"
    else
      let rest3 := rest2.takeWhile (fun c => c ≠ '#')
      let path := rest3.takeWhile (fun c => c ≠ '?')
      let query := (rest3.dropWhile (fun c => c ≠ '?')).drop 1
      Except.ok ⟨⟨scheme⟩, ⟨nl⟩, ⟨path⟩, ⟨query⟩⟩
  else
    let rest3 := rest.takeWhile (fun c => c ≠ '#')
    let path := rest3.takeWhile (fun c => c ≠ '?')
    let query := (rest3.dropWhile (fun c => c ≠ '?')).drop 1
    Except.ok ⟨⟨scheme⟩, ⟨[]⟩, ⟨path⟩, ⟨query⟩⟩

/-- CPython `_splitparams`: strip a `;params` suffix from the last path
segment (the params part is discarded; no check reads it). -/
def splitparamsL (path : List Char) : List Char :=
  if '/' ∈ path then
    -- find ';' at or after the last '/'
    let afterSlash := (path.reverse.takeWhile (fun c => c ≠ '/')).reverse
    if ';' ∈ afterSlash then
      let keep := afterSlash.takeWhile (fun c => c ≠ ';')
      path.take (path.length - afterSlash.length) ++ keep
    else path
  else path.takeWhile (fun c => c ≠ ';')

/-- Model of `urllib.parse.urlparse` (as used by the detector): `urlsplit`
plus the params split on the path. -/
def urlparse (url : String) : Except String UrlParts :=
  match urlsplitL url.data with
  | Except.error e => Except.error e
  | Except.ok p =>
      let path := if ';' ∈ p.path.data then splitparamsL p.path.data else p.path.data
      Except.ok ⟨p.scheme, p.netloc, ⟨path⟩, p.query⟩

/-! ### Model of `difflib.SequenceMatcher` (no junk; inputs shorter than 200
characters, so `autojunk` has no effect) -/

/-- Length of the common prefix of two character lists: the length of the
matching run starting at a given pair of positions. -/
def commonLen : List Char → List Char → Nat
  | a :: as, b :: bs => if a == b then commonLen as bs + 1 else 0
  | _, _ => 0

/-- Model of `SequenceMatcher.find_longest_match` on a whole window: the
longest common substring, returned as `(i, j, size)` with the smallest `i`,
then the smallest `j`, among maximal blocks — difflib scans `i` ascending,
`j` ascending, updating only on a strictly larger size, which keeps exactly
that block. -/
def bestBlock (a b : List Char) : Nat × Nat × Nat :=
  (List.range a.length).foldl
    (fun best i =>
      (List.range b.length).foldl
        (fun best j =>
          let k := commonLen (a.drop i) (b.drop j)
          if best.2.2 < k then (i, j, k) else best)
        best)
    (0, 0, 0)

/-- Fuelled model of the total size `M` of the matching blocks of
`SequenceMatcher.get_matching_blocks`: find the best block, recurse on the
pieces to its left and to its right. -/
def mTotalF : Nat → List Char → List Char → Nat
  | 0, _, _ => 0
  | fuel + 1, a, b =>
      let ijk := bestBlock a b
      let i := ijk.1
      let j := ijk.2.1
      let k := ijk.2.2
      if k = 0 then 0
      else
        k + mTotalF fuel (a.take i) (b.take j)
          + mTotalF fuel (a.drop (i + k)) (b.drop (j + k))

/-- Total matched size `M`.  Fuel `a.length + b.length` is sufficient: every
recursive call is on a window whose `a`-part lost at least one character
(the block has size ≥ 1), so the recursion depth is at most `a.length`. -/
def mTotal (a b : List Char) : Nat :=
  mTotalF (a.length + b.length) a b

/-- Model of `SequenceMatcher.ratio()`: `2*M/T` as an exact rational
(`1` when both inputs are empty, as in difflib's `_calculate_ratio`).
`Rat.divInt` is exact rational division (the denominator is nonzero in the
branch where it is used). -/
def ratioQ (a b : List Char) : ℚ :=
  let t := a.length + b.length
  if t = 0 then 1 else Rat.divInt (2 * mTotal a b) t

/-! ### The detector's static reference lists (`EnhancedPhishingDetector.__init__`) -/

/-- Suspicious top-level domains (`self.suspicious_tlds`). -/
def suspicious_tlds : List String :=
  [".tk", ".ml", ".ga", ".cf", ".pw", ".cc"]

/-- Known URL-shortener substrings (`self.url_shorteners`). -/
def url_shorteners : List String :=
  ["tinyurl", "bit.ly", "goo.gl", "t.co", "ow.ly", "tiny.cc",
   "is.gd", "buff.ly", "short.link", "rebrand.ly"]

/-- Legitimate domains for typosquatting comparison
(`self.legitimate_domains`). -/
def legitimate_domains : List String :=
  ["google.com", "facebook.com", "amazon.com", "microsoft.com",
   "apple.com", "twitter.com", "linkedin.com", "github.com",
   "stackoverflow.com", "wikipedia.org"]

/-! ### The five checks -/

/-- Finding of `_check_basic_patterns`. -/
structure BasicPatterns where
  suspicious_chars : List String
  url_shortener : Bool
  suspicious_tld : Bool
  excessive_subdomains : Bool
  risk_points : Int
deriving DecidableEq, Repr

/-- Model of `_check_basic_patterns`. -/
def check_basic_patterns (url : String) : BasicPatterns :=
  let url_lower := pyLowerL url.data
  let found := (["@", "%00", ".exe", "==", "0x"] : List String).filter
    (fun c => hasSub c.data url_lower)
  let shortener := url_shorteners.any (fun s => hasSub s.data url_lower)
  let tld := suspicious_tlds.any
    (fun t => endsIn t.data url_lower || hasSub t.data url_lower)
  let excess := decide (3 < countChar '.' url.data)
  { suspicious_chars := found
    url_shortener := shortener
    suspicious_tld := tld
    excessive_subdomains := excess
    risk_points := 10 * found.length + (if shortener then 20 else 0)
      + (if tld then 15 else 0) + (if excess then 15 else 0) }

/-- Finding of `_analyze_domain`. -/
structure DomainAnalysis where
  is_ip : Bool
  domain_length : Nat
  has_numbers : Bool
  has_hyphens : Bool
  risk_points : Int
deriving DecidableEq, Repr

/-- Word character for the regex `\b` boundary (`[a-zA-Z0-9_]`). -/
def wordChar (c : Char) : Bool :=
  c.isAlpha || c.isDigit || c == '_'

/-- One `[0-9]{1,3}\.` group of the IP regex, matched at the head of the
list.  The greedy `{1,3}` with backtracking succeeds exactly when the run of
leading digits has length 1–3 and is followed by `'.'` (a shorter take would
leave a digit, not a dot, as the next character). -/
def ipGroup (cs : List Char) : Option (List Char) :=
  let run := cs.takeWhile Char.isDigit
  if 1 ≤ run.length ∧ run.length ≤ 3 ∧
      (cs.drop run.length).headD ' ' = '.' then
    some (cs.drop (run.length + 1))
  else none

/-- Model of `re.match(r'\b(?:[0-9]{1,3}\.){3}[0-9]{1,3}\b', domain)`
(anchored at the start; a digit at position 0 satisfies the leading `\b`).
After three `digits.` groups there must be a run of 1–3 digits followed by a
non-word character or the end of the string. -/
def isIpMatch (cs : List Char) : Bool :=
  match ipGroup cs with
  | none => false
  | some r1 =>
    match ipGroup r1 with
    | none => false
    | some r2 =>
      match ipGroup r2 with
      | none => false
      | some r3 =>
        let run := r3.takeWhile Char.isDigit
        decide (1 ≤ run.length ∧ run.length ≤ 3) &&
          (match r3.drop run.length with
           | [] => true
           | c :: _ => !wordChar c)

/-- Model of `_analyze_domain`; the `Except.error` branch is the Python
`except Exception` fallback (+20 points, defaults kept). -/
def analyze_domain (url : String) : DomainAnalysis :=
  match urlparse url with
  | Except.error _ =>
      { is_ip := false, domain_length := 0, has_numbers := false
        has_hyphens := false, risk_points := 20 }
  | Except.ok p =>
      let domain := pyLowerL p.netloc.data
      let ip := isIpMatch domain
      let nums := domain.any Char.isDigit
      let hyph := decide ('-' ∈ domain)
      { is_ip := ip
        domain_length := domain.length
        has_numbers := nums
        has_hyphens := hyph
        risk_points := (if ip then 25 else 0) + (if nums then 5 else 0)
          + (if hyph then 5 else 0)
          + (if 50 < domain.length then 10
             else if domain.length < 4 then 15 else 0) }

/-- Finding of `_check_typosquatting`. -/
structure TypoCheck where
  potential_target : Option String
  similarity_score : ℚ
  is_typosquatting : Bool
  risk_points : Int
deriving DecidableEq, Repr

/-- The initial (and fallback) typosquatting finding. -/
def zeroTypo : TypoCheck :=
  { potential_target := none, similarity_score := 0
    is_typosquatting := false, risk_points := 0 }

/-- Python `str.replace('www.', '')`: remove every non-overlapping
occurrence of `www.`, scanning left to right. -/
def removeWWW : List Char → List Char
  | 'w' :: 'w' :: 'w' :: '.' :: t => removeWWW t
  | c :: t => c :: removeWWW t
  | [] => []

/-- Model of `re.sub(r'^(www\.|m\.)', '', s)`: strip one leading `www.`
(preferred alternative) or `m.`. -/
def stripLeadWM (s : List Char) : List Char :=
  if leadsWith "www.".data s then s.drop 4
  else if leadsWith "m.".data s then s.drop 2
  else s

/-- Model of `re.sub(r'\.(com|org|net|edu|gov)$', '', s)`: strip one
trailing common TLD. -/
def stripTldEnd (s : List Char) : List Char :=
  if endsIn ".com".data s ∨ endsIn ".org".data s ∨ endsIn ".net".data s ∨
      endsIn ".edu".data s ∨ endsIn ".gov".data s then
    s.take (s.length - 4)
  else s

/-- The `domain` local of `_check_typosquatting` (line 167):
`parsed.netloc.lower().replace('www.', '')`. -/
def typoDomainOf (p : UrlParts) : List Char :=
  removeWWW (pyLowerL p.netloc.data)

/-- The `clean_domain` local of `_check_typosquatting` (lines 170–171). -/
def typoCleanOf (p : UrlParts) : List Char :=
  stripTldEnd (stripLeadWM (typoDomainOf p))

/-- Python `best_match.split('.')[0]`: the part before the first dot. -/
def labelOf (d : String) : List Char :=
  d.data.takeWhile (fun c => c ≠ '.')

/-- The `best_match` / `best_ratio` loop of `_check_typosquatting`: keep the
single strictly-best ratio above `0.7` (the exact rational
`Rat.divInt 7 10`), comparing the cleaned candidate
against each TLD-stripped legitimate domain. -/
def typoBest (clean : List Char) : Option String × ℚ :=
  legitimate_domains.foldl
    (fun best legit =>
      let clean_legit := stripTldEnd legit.data
      let r := ratioQ clean clean_legit
      if best.2 < r ∧ Rat.divInt 7 10 < r then (some legit, r) else best)
    (none, 0)

/-- Model of `_check_typosquatting`.  `int((best_ratio - 0.7) * 100)` is
modelled by `Rat.floor`; in the branch where it is evaluated the operand is
positive, where Python's truncation toward zero coincides with the floor.
A parse failure is the silent `except: pass`, returning the defaults. -/
def check_typosquatting (url : String) : TypoCheck :=
  match urlparse url with
  | Except.error _ => zeroTypo
  | Except.ok p =>
      let clean_domain := typoCleanOf p
      let best := typoBest clean_domain
      match best.1 with
      | some bm =>
          if Rat.divInt 7 10 < best.2 ∧ clean_domain ≠ labelOf bm then
            { potential_target := some bm
              similarity_score := best.2
              is_typosquatting := true
              risk_points := Rat.floor ((best.2 - Rat.divInt 7 10) * 100) }
          else zeroTypo
      | none => zeroTypo

/-- Finding of `_check_ssl`. -/
structure SslCheck where
  has_ssl : Bool
  ssl_valid : Bool
  ssl_error : Option String
  risk_points : Int
deriving DecidableEq, Repr

/-- Model of `_check_ssl`: an HTTPS-presence check only (the real TLS
handshake is commented out in the source); non-`https` schemes get 10
points, a parse failure records the error and gets 5 points. -/
def check_ssl (url : String) : SslCheck :=
  match urlparse url with
  | Except.error e =>
      { has_ssl := false, ssl_valid := false, ssl_error := some e
        risk_points := 5 }
  | Except.ok p =>
      if p.scheme = "https" then
        { has_ssl := true, ssl_valid := true, ssl_error := none
          risk_points := 0 }
      else
        { has_ssl := false, ssl_valid := false, ssl_error := none
          risk_points := 10 }

/-- Finding of `_analyze_url_structure`. -/
structure UrlStructure where
  path_depth : Nat
  has_query_params : Bool
  suspicious_params : List String
  encoded_chars : Bool
  risk_points : Int
deriving DecidableEq, Repr

/-- Model of `_analyze_url_structure`.  On a parse failure the whole `try`
body is skipped (including the `%` check, which is inside it), so only the
5 fallback points are added to the defaults. -/
def analyze_url_structure (url : String) : UrlStructure :=
  match urlparse url with
  | Except.error _ =>
      { path_depth := 0, has_query_params := false, suspicious_params := []
        encoded_chars := false, risk_points := 5 }
  | Except.ok p =>
      let depth := ((p.path.splitOn "/").filter (fun s => s ≠ "")).length
      let hasQ := p.query ≠ ""
      let params :=
        if p.query ≠ "" then
          (["redirect", "url", "goto", "next", "return"] : List String).filter
            (fun n => hasSub n.data (pyLowerL p.query.data))
        else []
      let enc := hasSub ['%'] url.data
      { path_depth := depth
        has_query_params := hasQ
        suspicious_params := params
        encoded_chars := enc
        risk_points := (if 5 < depth then 5 else 0) + 10 * params.length
          + (if enc then 5 else 0) }

/-! ### Aggregation (`analyze_url`, `_calculate_risk_score`,
`_get_risk_level`, `_get_recommendations`, `batch_analyze`) -/

/-- The per-check findings of one analysis (`analysis['checks']`). -/
structure Checks where
  basic_patterns : BasicPatterns
  domain_analysis : DomainAnalysis
  typosquatting : TypoCheck
  ssl_check : SslCheck
  url_structure : UrlStructure
deriving DecidableEq, Repr

/-- The five findings of one URL. -/
def checksOf (url : String) : Checks :=
  { basic_patterns := check_basic_patterns url
    domain_analysis := analyze_domain url
    typosquatting := check_typosquatting url
    ssl_check := check_ssl url
    url_structure := analyze_url_structure url }

/-- Model of `_calculate_risk_score`: the sum of the five `risk_points`
fields, capped at 100 (every check result is a dict with a `risk_points`
key, so the `isinstance` guard always passes). -/
def calculate_risk_score (c : Checks) : Int :=
  min (c.basic_patterns.risk_points + c.domain_analysis.risk_points
    + c.typosquatting.risk_points + c.ssl_check.risk_points
    + c.url_structure.risk_points) 100

/-- Model of `_get_risk_level`. -/
def get_risk_level (risk_score : Int) : String :=
  if 70 ≤ risk_score then "CRITICAL"
  else if 50 ≤ risk_score then "HIGH"
  else if 30 ≤ risk_score then "MEDIUM"
  else if 10 ≤ risk_score then "LOW"
  else "MINIMAL"

/-- Model of `_get_recommendations` (a pure function of the risk score; the
source's decorative emoji prefixes are elided from the strings). -/
def get_recommendations (risk_score : Int) : List String :=
  if 50 ≤ risk_score then
    ["DO NOT visit this URL or enter any personal information",
     "This URL shows multiple high-risk indicators",
     "Report this URL to your IT security team if received via email"]
  else if 30 ≤ risk_score then
    ["Exercise extreme caution with this URL",
     "Verify the URL through official channels",
     "Use additional security tools before visiting"]
  else if 10 ≤ risk_score then
    ["Be cautious and verify the source",
     "Ensure HTTPS is used and certificate is valid",
     "Double-check the domain spelling"]
  else
    ["URL appears relatively safe",
     "Always verify HTTPS and certificates",
     "Remain vigilant for any suspicious behavior"]

/-- One analysis result (`analyze_url`'s dict). -/
structure Analysis where
  url : String
  timestamp : String
  risk_score : Int
  risk_level : String
  is_suspicious : Bool
  checks : Checks
  recommendations : List String
deriving DecidableEq, Repr

/-- Model of `analyze_url`.  The effectful `datetime.now().isoformat()` is
modelled as an explicit `timestamp` input; no other part of the result
depends on it. -/
def analyze_url (timestamp : String) (url : String) : Analysis :=
  let checks := checksOf url
  let risk_score := calculate_risk_score checks
  { url := url
    timestamp := timestamp
    risk_score := risk_score
    risk_level := get_risk_level risk_score
    is_suspicious := decide (30 ≤ risk_score)
    checks := checks
    recommendations := get_recommendations risk_score }

/-- One element of a batch result: either an analysis, or the error record
`{'url': url, 'error': e, 'risk_level': 'ERROR'}` (the constant
`'ERROR'` level is implicit in the `error` constructor). -/
inductive BatchItem where
  | ok (a : Analysis)
  | error (url : String) (e : String)
deriving DecidableEq, Repr

/-- Model of the `batch_analyze` loop body: the per-URL `try`/`except`,
abstracted over the pipeline (`self.analyze_url` together with whatever
exceptions it may raise, e.g. on non-string elements); an exception is
captured as an error record and processing continues. -/
def batchRun (pipeline : String → Except String Analysis)
    (urls : List String) : List BatchItem :=
  urls.map (fun url =>
    match pipeline url with
    | Except.ok a => BatchItem.ok a
    | Except.error e => BatchItem.error url e)

/-- Model of `batch_analyze` with the embedded (total) `analyze_url` as the
pipeline. -/
def batch_analyze (timestamp : String) (urls : List String) : List BatchItem :=
  batchRun (fun url => Except.ok (analyze_url timestamp url)) urls

/-! ### Non-negativity of each check's point contribution -/

/-- The lexical check never contributes negative points. -/
theorem basic_patterns_points_nonneg (url : String) :
    0 ≤ (check_basic_patterns url).risk_points := by
  unfold check_basic_patterns
  dsimp only
  split_ifs <;> positivity

/-- The domain check never contributes negative points. -/
theorem domain_points_nonneg (url : String) :
    0 ≤ (analyze_domain url).risk_points := by
  unfold analyze_domain
  split
  · norm_num
  · dsimp only
    split_ifs <;> positivity

/-- The exact rational standing for the literal `0.7`. -/
theorem divInt_7_10_eq : Rat.divInt 7 10 = 7/10 := by
  norm_num [Rat.divInt_eq_div]

/-- The scaled-floor point formula is non-negative above the threshold. -/
theorem floor_pts_nonneg {q : ℚ} (h : Rat.divInt 7 10 < q) :
    0 ≤ Rat.floor ((q - Rat.divInt 7 10) * 100) := by
  rw [divInt_7_10_eq] at h ⊢
  have hpos : (0 : ℚ) ≤ (q - 7/10) * 100 := by nlinarith
  exact Rat.le_floor.mpr (by exact_mod_cast hpos)

/-- The scaled-floor point formula is at most 30 for ratios at most 1. -/
theorem floor_pts_le_30 {q : ℚ} (h : q ≤ 1) :
    Rat.floor ((q - Rat.divInt 7 10) * 100) ≤ 30 := by
  rw [divInt_7_10_eq]
  have h2 : (q - 7/10) * 100 ≤ 30 := by nlinarith
  have h3 := Int.floor_le_floor (α := ℚ) h2
  simpa using h3

/-- The typosquatting check never contributes negative points: points are
only awarded under the `best_ratio > 0.7` guard, where the floor is of a
positive rational. -/
theorem typo_points_nonneg (url : String) :
    0 ≤ (check_typosquatting url).risk_points := by
  unfold check_typosquatting
  split
  · simp [zeroTypo]
  · dsimp only
    split
    · split_ifs with h
      · exact floor_pts_nonneg h.1
      · simp [zeroTypo]
    · simp [zeroTypo]

/-- The transport-security check never contributes negative points. -/
theorem ssl_points_nonneg (url : String) :
    0 ≤ (check_ssl url).risk_points := by
  unfold check_ssl
  split
  · norm_num
  · split_ifs <;> norm_num

/-- The structural check never contributes negative points. -/
theorem structure_points_nonneg (url : String) :
    0 ≤ (analyze_url_structure url).risk_points := by
  unfold analyze_url_structure
  split
  · norm_num
  · dsimp only
    split_ifs <;> positivity

/-! ### C1 — risk score is the capped sum of the five findings -/

/-- C1: for every input URL, the `risk_score` of the analysis result equals
`min(S, 100)` where `S` is the sum of the `risk_points` of the five check
findings, and consequently `0 ≤ risk_score ≤ 100`. -/
theorem risk_score_is_capped_sum (timestamp url : String) :
    (analyze_url timestamp url).risk_score =
      min ((analyze_url timestamp url).checks.basic_patterns.risk_points +
           (analyze_url timestamp url).checks.domain_analysis.risk_points +
           (analyze_url timestamp url).checks.typosquatting.risk_points +
           (analyze_url timestamp url).checks.ssl_check.risk_points +
           (analyze_url timestamp url).checks.url_structure.risk_points) 100 ∧
    0 ≤ (analyze_url timestamp url).risk_score ∧
    (analyze_url timestamp url).risk_score ≤ 100 := by
  refine ⟨rfl, ?_, ?_⟩
  · show 0 ≤ calculate_risk_score (checksOf url)
    refine le_min ?_ (by norm_num)
    have h1 := basic_patterns_points_nonneg url
    have h2 := domain_points_nonneg url
    have h3 := typo_points_nonneg url
    have h4 := ssl_points_nonneg url
    have h5 := structure_points_nonneg url
    unfold checksOf
    dsimp only
    linarith
  · show calculate_risk_score (checksOf url) ≤ 100
    exact min_le_right _ _

/-! ### C2 — suspicious flag is exactly the 30-point threshold -/

/-- C2: for every input URL, `is_suspicious` is true if and only if the
capped risk score is at least 30. -/
theorem suspicious_iff_score_ge_30 (timestamp url : String) :
    (analyze_url timestamp url).is_suspicious = true ↔
      30 ≤ (analyze_url timestamp url).risk_score := by
  show decide (30 ≤ calculate_risk_score (checksOf url)) = true ↔ _
  exact decide_eq_true_iff

/-! ### C3 — risk level is the non-overlapping step function of the score -/

/-- Risk-level table of the claim, stated with explicit non-overlapping
ranges: CRITICAL for ≥ 70, HIGH for 50–69, MEDIUM for 30–49, LOW for
10–29, MINIMAL for 0–9. -/
def specRiskLevel (s : Int) : String :=
  if 70 ≤ s then "CRITICAL"
  else if 50 ≤ s ∧ s ≤ 69 then "HIGH"
  else if 30 ≤ s ∧ s ≤ 49 then "MEDIUM"
  else if 10 ≤ s ∧ s ≤ 29 then "LOW"
  else "MINIMAL"

/-- The source's cascading `_get_risk_level` agrees with the explicit
non-overlapping table on every integer score. -/
theorem get_risk_level_eq_spec (s : Int) :
    get_risk_level s = specRiskLevel s := by
  unfold get_risk_level specRiskLevel
  split_ifs <;> first | rfl | omega

/-- C3: for every input URL, the `risk_level` of the analysis result is the
non-overlapping step function of the capped risk score given by the claim's
table. -/
theorem risk_level_is_step_function (timestamp url : String) :
    (analyze_url timestamp url).risk_level =
      specRiskLevel (analyze_url timestamp url).risk_score :=
  get_risk_level_eq_spec _

/-! ### C9 — determinism up to the timestamp -/

/-- C9: `analyze_url` is deterministic up to the timestamp field: two
evaluations on the same URL (modelled by two arbitrary timestamp inputs,
the only effectful datum) agree on `url`, `risk_score`, `risk_level`,
`is_suspicious`, all five check findings, and `recommendations`; these
fields depend only on the input string and the static reference lists,
which no operation mutates. -/
theorem analyze_url_deterministic (t1 t2 url : String) :
    (analyze_url t1 url).url = (analyze_url t2 url).url ∧
    (analyze_url t1 url).risk_score = (analyze_url t2 url).risk_score ∧
    (analyze_url t1 url).risk_level = (analyze_url t2 url).risk_level ∧
    (analyze_url t1 url).is_suspicious = (analyze_url t2 url).is_suspicious ∧
    (analyze_url t1 url).checks = (analyze_url t2 url).checks ∧
    (analyze_url t1 url).recommendations = (analyze_url t2 url).recommendations :=
  ⟨rfl, rfl, rfl, rfl, rfl, rfl⟩

/-! ### C4 — batch analysis is length-preserving and failure-isolated -/

/-- C4: for every pipeline (the per-URL analysis together with whatever
exceptions it may raise) and every input sequence, batch analysis returns a
sequence of exactly the same length in which the element at position `i` is
either the analysis result for input `i`, or an error record carrying input
`i`'s URL and the error description; a failure on one element never aborts
the processing of the remaining elements. -/
theorem batch_length_and_isolation (pipeline : String → Except String Analysis)
    (urls : List String) :
    (batchRun pipeline urls).length = urls.length ∧
    ∀ (i : ℕ) (u : String), urls[i]? = some u →
      (∃ a, pipeline u = Except.ok a ∧
        (batchRun pipeline urls)[i]? = some (BatchItem.ok a)) ∨
      (∃ e, pipeline u = Except.error e ∧
        (batchRun pipeline urls)[i]? = some (BatchItem.error u e)) := by
  constructor
  · exact List.length_map urls _
  · intro i u hu
    have hmap : (batchRun pipeline urls)[i]? =
        Option.map (fun url =>
          match pipeline url with
          | Except.ok a => BatchItem.ok a
          | Except.error e => BatchItem.error url e) urls[i]? :=
      List.getElem?_map _ urls i
    rw [hu] at hmap
    cases hp : pipeline u with
    | ok a => exact Or.inl ⟨a, rfl, by rw [hmap]; simp [hp]⟩
    | error e => exact Or.inr ⟨e, rfl, by rw [hmap]; simp [hp]⟩

/-- A concrete failing pipeline used to witness C4: it raises on the
element `"bad"` and analyzes everything else. -/
def demoPipeline : String → Except String Analysis := fun u =>
  if u = "bad" then Except.error "boom" else Except.ok (analyze_url "t" u)

/-- Witness for C4 at a concrete batch containing a failing element: the
output has the input's length, the failing element yields an error record
with its URL, and the following element is still analyzed. -/
theorem batch_length_and_isolation_witness :
    (batchRun demoPipeline ["https://ok.com", "bad", "https://after.com"]).length = 3 ∧
    (batchRun demoPipeline ["https://ok.com", "bad", "https://after.com"])[1]? =
      some (BatchItem.error "bad" "boom") ∧
    (batchRun demoPipeline ["https://ok.com", "bad", "https://after.com"])[2]? =
      some (BatchItem.ok (analyze_url "t" "https://after.com")) := by
  have h := batch_length_and_isolation demoPipeline
    ["https://ok.com", "bad", "https://after.com"]
  refine ⟨h.1, ?_, ?_⟩
  · rcases h.2 1 "bad" rfl with ⟨a, ha, _⟩ | ⟨e, he, hg⟩
    · exact absurd ha (by simp [demoPipeline])
    · have he' : e = "boom" := by simpa [demoPipeline] using he.symm
      rw [← he']; exact hg
  · rcases h.2 2 "https://after.com" rfl with ⟨a, ha, hg⟩ | ⟨e, he, _⟩
    · have ha' : a = analyze_url "t" "https://after.com" := by
        simpa [demoPipeline] using ha.symm
      rw [← ha']; exact hg
    · exact absurd he (by simp [demoPipeline])

/-! ### Bounds on the similarity ratio -/

/-- A matching run is no longer than the first input. -/
theorem commonLen_le_left (a : List Char) : ∀ b, commonLen a b ≤ a.length := by
  induction a with
  | nil => intro b; cases b <;> simp [commonLen]
  | cons c t ih =>
      intro b
      cases b with
      | nil => simp [commonLen]
      | cons d u =>
          simp only [commonLen, List.length_cons]
          split
          · exact Nat.succ_le_succ (ih u)
          · exact Nat.zero_le _

/-- A matching run is no longer than the second input. -/
theorem commonLen_le_right (a : List Char) : ∀ b, commonLen a b ≤ b.length := by
  induction a with
  | nil => intro b; cases b <;> simp [commonLen]
  | cons c t ih =>
      intro b
      cases b with
      | nil => simp [commonLen]
      | cons d u =>
          simp only [commonLen, List.length_cons]
          split
          · exact Nat.succ_le_succ (ih u)
          · exact Nat.zero_le _

/-- The best block fits inside both windows. -/
theorem bestBlock_bounds (a b : List Char) :
    (bestBlock a b).2.2 ≤ a.length - (bestBlock a b).1 ∧
    (bestBlock a b).2.2 ≤ b.length - (bestBlock a b).2.1 := by
  unfold bestBlock
  refine List.foldlRecOn
    (motive := fun best : Nat × Nat × Nat =>
      best.2.2 ≤ a.length - best.1 ∧ best.2.2 ≤ b.length - best.2.1)
    (List.range a.length) _ (0, 0, 0) (by simp) ?_
  intro best hbest i _
  refine List.foldlRecOn
    (motive := fun best : Nat × Nat × Nat =>
      best.2.2 ≤ a.length - best.1 ∧ best.2.2 ≤ b.length - best.2.1)
    (List.range b.length) _ best hbest ?_
  intro best2 hbest2 j _
  dsimp only
  split
  · constructor
    · have h := commonLen_le_left (a.drop i) (b.drop j)
      simpa using h
    · have h := commonLen_le_right (a.drop i) (b.drop j)
      simpa using h
  · exact hbest2

/-- The total matched size is bounded by both input lengths (for any fuel). -/
theorem mTotalF_le (fuel : Nat) : ∀ a b : List Char,
    mTotalF fuel a b ≤ a.length ∧ mTotalF fuel a b ≤ b.length := by
  induction fuel with
  | zero => intro a b; simp [mTotalF]
  | succ f ih =>
      intro a b
      unfold mTotalF
      dsimp only
      split
      · simp
      · obtain ⟨hA, hB⟩ := bestBlock_bounds a b
        obtain ⟨l1a, l1b⟩ := ih (a.take (bestBlock a b).1) (b.take (bestBlock a b).2.1)
        obtain ⟨l2a, l2b⟩ :=
          ih (a.drop ((bestBlock a b).1 + (bestBlock a b).2.2))
             (b.drop ((bestBlock a b).2.1 + (bestBlock a b).2.2))
        simp only [List.length_take, List.length_drop] at l1a l1b l2a l2b
        constructor <;> omega

/-- The similarity ratio never exceeds 1. -/
theorem ratioQ_le_one (a b : List Char) : ratioQ a b ≤ 1 := by
  unfold ratioQ
  dsimp only
  split
  · exact le_refl 1
  · next ht =>
      rw [Rat.divInt_eq_div]
      rw [div_le_one (by exact_mod_cast Nat.pos_of_ne_zero ht)]
      have h1 := (mTotalF_le (a.length + b.length) a b).1
      have h2 := (mTotalF_le (a.length + b.length) a b).2
      have hle : 2 * mTotal a b ≤ a.length + b.length := by
        unfold mTotal
        omega
      exact_mod_cast hle

/-! ### Characterization of the best-match fold -/

/-- The `best_match`/`best_ratio` fold either keeps its initial state or
ends at some legitimate domain of the list, with the recorded ratio being
that domain's similarity ratio, strictly above the 0.7 threshold. -/
theorem typoBest_char (clean : List Char) :
    typoBest clean = (none, 0) ∨
    ∃ legit, legit ∈ legitimate_domains ∧
      typoBest clean = (some legit, ratioQ clean (stripTldEnd legit.data)) ∧
      Rat.divInt 7 10 < ratioQ clean (stripTldEnd legit.data) := by
  unfold typoBest
  refine List.foldlRecOn
    (motive := fun acc : Option String × ℚ =>
      acc = (none, 0) ∨
      ∃ legit, legit ∈ legitimate_domains ∧
        acc = (some legit, ratioQ clean (stripTldEnd legit.data)) ∧
        Rat.divInt 7 10 < ratioQ clean (stripTldEnd legit.data))
    legitimate_domains _ ((none : Option String), (0 : ℚ))
    (Or.inl rfl) ?_
  intro acc hacc legit hmem
  dsimp only
  split
  · next h => exact Or.inr ⟨legit, hmem, rfl, h.2⟩
  · exact hacc

/-- If the fold ends at a best match, that match is a legitimate domain,
the recorded ratio is its similarity ratio, it exceeds the 0.7 threshold,
and it is at most 1. -/
theorem typoBest_some (clean : List Char) (bm : String)
    (hbm : (typoBest clean).1 = some bm) :
    bm ∈ legitimate_domains ∧
    (typoBest clean).2 = ratioQ clean (stripTldEnd bm.data) ∧
    Rat.divInt 7 10 < (typoBest clean).2 ∧
    (typoBest clean).2 ≤ 1 := by
  rcases typoBest_char clean with h | ⟨legit, hmem, heq, hthr⟩
  · rw [h] at hbm; cases hbm
  · have hfst : (typoBest clean).1 = some legit := by rw [heq]
    rw [hbm] at hfst
    have hlegit : bm = legit := Option.some_inj.mp hfst
    subst hlegit
    refine ⟨hmem, by rw [heq], by rw [heq]; exact hthr, ?_⟩
    rw [heq]
    exact ratioQ_le_one _ _

/-! ### C5 — the typosquatting point formula -/

/-- C5: whenever the typosquatting check's best similarity ratio against
the legitimate-domain list exceeds 0.70 (equivalently, the best-match fold
ends at some domain) and the best match's cleaned label differs from the
cleaned candidate label, the finding contributes exactly
`floor((best_ratio - 0.70) * 100)` risk points — a value in 0–30 — and
records the matched legitimate domain and the ratio as evidence; in every
other case, including a URL-parse failure, it contributes zero points and
records no target. -/
theorem typosquatting_points_formula (url : String) :
    (∀ e, urlparse url = Except.error e → check_typosquatting url = zeroTypo) ∧
    (∀ p, urlparse url = Except.ok p →
      (∀ bm, (typoBest (typoCleanOf p)).1 = some bm →
        typoCleanOf p ≠ labelOf bm →
          check_typosquatting url =
            { potential_target := some bm
              similarity_score := (typoBest (typoCleanOf p)).2
              is_typosquatting := true
              risk_points :=
                Rat.floor (((typoBest (typoCleanOf p)).2 - Rat.divInt 7 10) * 100) } ∧
          Rat.divInt 7 10 < (typoBest (typoCleanOf p)).2 ∧
          0 ≤ (check_typosquatting url).risk_points ∧
          (check_typosquatting url).risk_points ≤ 30) ∧
      ((typoBest (typoCleanOf p)).1 = none → check_typosquatting url = zeroTypo) ∧
      (∀ bm, (typoBest (typoCleanOf p)).1 = some bm →
        typoCleanOf p = labelOf bm → check_typosquatting url = zeroTypo)) := by
  constructor
  · intro e he
    unfold check_typosquatting
    rw [he]
  · intro p hp
    refine ⟨?_, ?_, ?_⟩
    · intro bm hbm hne
      obtain ⟨_, hratio, hthr, hle1⟩ := typoBest_some _ bm hbm
      have heq : check_typosquatting url =
          { potential_target := some bm
            similarity_score := (typoBest (typoCleanOf p)).2
            is_typosquatting := true
            risk_points :=
              Rat.floor (((typoBest (typoCleanOf p)).2 - Rat.divInt 7 10) * 100) } := by
        unfold check_typosquatting
        rw [hp]
        dsimp only
        rw [hbm]
        dsimp only
        rw [if_pos ⟨hthr, hne⟩]
      refine ⟨heq, hthr, typo_points_nonneg url, ?_⟩
      rw [heq]
      exact floor_pts_le_30 hle1
    · intro hnone
      unfold check_typosquatting
      rw [hp]
      dsimp only
      rw [hnone]
    · intro bm hbm hlab
      unfold check_typosquatting
      rw [hp]
      dsimp only
      rw [hbm]
      dsimp only
      rw [if_neg (by intro h; exact h.2 hlab)]

set_option maxRecDepth 8000 in
/-- Witness for C5 at `https://gooogle.com`: the best match is
`google.com` with ratio `12/13`, the cleaned labels differ, and the check
awards `floor((12/13 - 7/10) * 100) = 22` points. -/
theorem typosquatting_points_formula_witness :
    check_typosquatting "https://gooogle.com" =
      { potential_target := some "google.com"
        similarity_score := Rat.divInt 12 13
        is_typosquatting := true
        risk_points := 22 } := by
  have h := (typosquatting_points_formula "https://gooogle.com").2
    ⟨"https", "gooogle.com", "", ""⟩ rfl
  have hpair : typoBest (typoCleanOf (⟨"https", "gooogle.com", "", ""⟩ : UrlParts)) =
      (some "google.com", Rat.divInt 12 13) := by decide
  have hbm : (typoBest (typoCleanOf (⟨"https", "gooogle.com", "", ""⟩ : UrlParts))).1 =
      some "google.com" := by rw [hpair]
  obtain ⟨heq, hthr, h0, h30⟩ := h.1 "google.com" hbm (by decide)
  rw [heq, hpair]
  have harith : ((Rat.divInt 12 13 - Rat.divInt 7 10) * 100) = Rat.divInt 290 13 := by
    norm_num [Rat.divInt_eq_div]
  dsimp only
  rw [harith]
  decide

/-! ### C10 — a flagged typosquatting finding with zero points -/

set_option maxRecDepth 8000 in
/-- C10: there exists a URL for which the typosquatting finding reports
`is_typosquatting = true` with a non-null `potential_target` yet
contributes 0 risk points: at `https://googlexxxxx.com` the best ratio is
`12/17`, strictly between 0.70 and 0.71, so the integer point formula
truncates to zero while the flag is still set. -/
theorem typosquatting_flag_without_points :
    ∃ url : String, (check_typosquatting url).is_typosquatting = true ∧
      (check_typosquatting url).potential_target ≠ none ∧
      (check_typosquatting url).risk_points = 0 ∧
      Rat.divInt 7 10 < (check_typosquatting url).similarity_score ∧
      (check_typosquatting url).similarity_score < Rat.divInt 71 100 := by
  refine ⟨"https://googlexxxxx.com", ?_⟩
  have hpair : typoBest (typoCleanOf (⟨"https", "googlexxxxx.com", "", ""⟩ : UrlParts)) =
      (some "google.com", Rat.divInt 12 17) := by decide
  have heq : check_typosquatting "https://googlexxxxx.com" =
      { potential_target := some "google.com"
        similarity_score := Rat.divInt 12 17
        is_typosquatting := true
        risk_points := 0 } := by
    unfold check_typosquatting
    rw [show urlparse "https://googlexxxxx.com" =
      Except.ok ⟨"https", "googlexxxxx.com", "", ""⟩ from rfl]
    dsimp only
    rw [hpair]
    dsimp only
    rw [if_pos ⟨by decide, by decide⟩]
    have harith : ((Rat.divInt 12 17 - Rat.divInt 7 10) * 100) = Rat.divInt 10 17 := by
      norm_num [Rat.divInt_eq_div]
    rw [harith]
    decide
  rw [heq]
  exact ⟨rfl, by decide, rfl, by decide, by decide⟩

/-! ### C6 — what the host-cleaning step actually does -/

/-- Cleaning as described by claim C6: strip only a leading `www.` or `m.`
prefix and a trailing `.com`/`.org`/`.net`/`.edu`/`.gov` suffix; every
other character of the host is left unchanged (in particular an interior
`www.` would be preserved).  This definition follows the claim's words, to
be compared with the source-derived cleaning. -/
def specCleanC6 (host : List Char) : List Char :=
  let afterPre :=
    if leadsWith "www.".data host then host.drop 4
    else if leadsWith "m.".data host then host.drop 2
    else host
  if endsIn ".com".data afterPre ∨ endsIn ".org".data afterPre ∨
      endsIn ".net".data afterPre ∨ endsIn ".edu".data afterPre ∨
      endsIn ".gov".data afterPre then
    afterPre.take (afterPre.length - 4)
  else afterPre

/-- A host with no occurrence of `www.` is unchanged by the
`str.replace('www.', '')` step. -/
theorem removeWWW_id_of_no_sub (s : List Char)
    (h : hasSub "www.".data s = false) : removeWWW s = s := by
  induction s with
  | nil => rfl
  | cons c t ih =>
      rw [hasSub] at h
      obtain ⟨hlead, ht⟩ := Bool.or_eq_false_iff.mp h
      rw [removeWWW.eq_def]
      split
      · next _ t' heq =>
          rw [heq] at hlead
          simp [leadsWith] at hlead
      · next _ c' t' _ heq =>
          injection heq with h1 h2
          rw [← h1, ← h2]
          exact congrArg (c :: ·) (ih ht)
      · next _ heq => exact absurd heq (by simp)

/-- Counterexample to C6: for the host `evil.www.google.com` the claim
predicts that the interior `www.` is preserved (cleaning to
`evil.www.google`), but the source's `replace('www.', '')` on line 167
removes every occurrence, cleaning to `evil.google`. -/
theorem host_cleaning_counterexample :
    typoCleanOf ⟨"https", "evil.www.google.com", "", ""⟩ = "evil.google".data ∧
    specCleanC6 (pyLowerL "evil.www.google.com".data) = "evil.www.google".data ∧
    typoCleanOf ⟨"https", "evil.www.google.com", "", ""⟩ ≠
      specCleanC6 (pyLowerL "evil.www.google.com".data) :=
  ⟨by decide, by decide, by decide⟩

/-- C6 (amended): the typosquatting check first removes every occurrence
of `www.` from the lowercased host, and only then strips a leading `www.`
or `m.` prefix and a trailing common TLD exactly as the claim describes;
consequently the claim's description is accurate precisely for hosts
containing no `www.` occurrence at all (a leading-only `www.` is removed by
the replace step rather than the prefix step, and an interior `www.` is
removed, not preserved). -/
theorem host_cleaning_amended :
    (∀ p : UrlParts,
      typoCleanOf p = specCleanC6 (removeWWW (pyLowerL p.netloc.data))) ∧
    (∀ p : UrlParts, hasSub "www.".data (pyLowerL p.netloc.data) = false →
      typoCleanOf p = specCleanC6 (pyLowerL p.netloc.data)) := by
  constructor
  · intro p
    rfl
  · intro p h
    have h1 : typoCleanOf p = specCleanC6 (removeWWW (pyLowerL p.netloc.data)) := rfl
    rw [h1, removeWWW_id_of_no_sub _ h]

/-- Witness for the amended C6 at the `www.`-free host `evil-site.com`. -/
theorem host_cleaning_amended_witness :
    hasSub "www.".data (pyLowerL "evil-site.com".data) = false ∧
    typoCleanOf ⟨"https", "evil-site.com", "", ""⟩ =
      specCleanC6 (pyLowerL "evil-site.com".data) :=
  ⟨by decide, host_cleaning_amended.2 ⟨"https", "evil-site.com", "", ""⟩ (by decide)⟩

/-! ### Model of the URL-extraction regex (`gmail_url_extractor.py` lines
84–87).

The pattern is an alternation `A|B` where
`A = http[s]?://(?:[a-zA-Z]|[0-9]|[$-_@.&+]|[!*\\(\\),]|(?:%[0-9a-fA-F][0-9a-fA-F]))+`
and `B` is the bare-domain alternative.  In `A`'s character classes,
`[$-_@.&+]` is the range `0x24`–`0x5F` (which already contains `@ . & +`
and `%`), `[!*\\(\\),]` adds `!` (its other members `* \ ( ) ,` lie in the
range), and the `%hh` alternative is subsumed by the range, so one
character predicate describes every single step of the greedy `+`.
`re.findall` scans left to right, trying `A` then `B` at each position and
resuming after each non-empty match. -/

/-- One character of `A`'s repeated alternation. -/
def isUrlChar (c : Char) : Bool :=
  c.isAlpha || c.isDigit || (decide (36 ≤ c.toNat) && decide (c.toNat ≤ 95)) || c == '!'

/-- ASCII letters and digits, `[a-zA-Z0-9]`. -/
def isAlnumChar (c : Char) : Bool :=
  c.isAlpha || c.isDigit

/-- ASCII letters, digits and hyphen, `[a-zA-Z0-9-]`. -/
def isAlnumHyChar (c : Char) : Bool :=
  isAlnumChar c || c == '-'

/-- The characters a `B`-match can contain. -/
def isDomainChar (c : Char) : Bool :=
  isAlnumChar c || c == '.' || c == '-'

/-- The literal `http://`. -/
def httpPrefix : List Char := ['h', 't', 't', 'p', ':', '/', '/']

/-- The literal `https://`. -/
def httpsPrefix : List Char := ['h', 't', 't', 'p', 's', ':', '/', '/']

/-- The literal `www.`. -/
def wwwPrefix : List Char := ['w', 'w', 'w', '.']

/-- Match of alternative `A` at the head of the input: the literal scheme
(`[s]?` greedy, which on these two literals reduces to trying `https://`
then `http://`) followed by a maximal non-empty run of URL characters (the
`+` is greedy and nothing follows it inside the alternative, so
backtracking never shortens the run). -/
def matchA (cs : List Char) : Option (List Char × List Char) :=
  if leadsWith httpsPrefix cs then
    let rest := cs.drop 8
    let run := rest.takeWhile isUrlChar
    if run = [] then none
    else some (httpsPrefix ++ run, rest.dropWhile isUrlChar)
  else if leadsWith httpPrefix cs then
    let rest := cs.drop 7
    let run := rest.takeWhile isUrlChar
    if run = [] then none
    else some (httpPrefix ++ run, rest.dropWhile isUrlChar)
  else none

/-- All splits of the group `G = [a-zA-Z0-9](?:[a-zA-Z0-9-]{0,61}[a-zA-Z0-9])?`
at the head of the input, as `(consumed, rest)` pairs in the backtracking
preference order of Python's engine: the optional group present first, its
bounded repetition as long as possible first (61 down to 0), then the
optional group absent. -/
def gSplits (cs : List Char) : List (List Char × List Char) :=
  match cs with
  | [] => []
  | c :: t =>
      if isAlnumChar c then
        ((List.range 62).reverse.filterMap (fun k =>
          if k ≤ (t.takeWhile isAlnumHyChar).length then
            match t.drop k with
            | d :: r => if isAlnumChar d then some (c :: (t.take k ++ [d]), r) else none
            | [] => none
          else none)) ++ [([c], t)]
      else []

/-- All splits of one loop iteration `\.G`. -/
def iterSplits (cs : List Char) : List (List Char × List Char) :=
  match cs with
  | '.' :: t => (gSplits t).map (fun p => ('.' :: p.1, p.2))
  | _ => []

/-- Fuelled splits of the greedy loop `(?:\.G)*`, by the standard greedy
unfolding `X* = (X X* | ε)` (an iteration first, the empty match last).
Fuel `cs.length` is sufficient because every iteration consumes at least
two characters. -/
def loopSplitsF : Nat → List Char → List (List Char × List Char)
  | 0, cs => [([], cs)]
  | fuel + 1, cs =>
      ((iterSplits cs).flatMap (fun p =>
        (loopSplitsF fuel p.2).map (fun q => (p.1 ++ q.1, q.2)))) ++ [([], cs)]

/-- Splits of the greedy loop `(?:\.G)*`. -/
def loopSplits (cs : List Char) : List (List Char × List Char) :=
  loopSplitsF cs.length cs

/-- All splits of the mandatory tail `\.[a-zA-Z]{2,}`, greedy: the longest
letter run first, down to two letters. -/
def tailSplits (cs : List Char) : List (List Char × List Char) :=
  match cs with
  | '.' :: t =>
      (List.range ((t.takeWhile Char.isAlpha).length + 1)).reverse.filterMap
        (fun k => if 2 ≤ k then some ('.' :: t.take k, t.drop k) else none)
  | _ => []

/-- All splits of the optional prefix `(?:www\.)?` (present first). -/
def wwwSplits (cs : List Char) : List (List Char × List Char) :=
  (if leadsWith wwwPrefix cs then [(wwwPrefix, cs.drop 4)] else []) ++ [([], cs)]

/-- All splits of alternative `B`
(`(?:www\.)?G(?:\.G)*\.[a-zA-Z]{2,}`), composed in Python's backtracking
preference order (earlier components are outer, so a later component's
alternatives are exhausted before an earlier component backtracks). -/
def bSplits (cs : List Char) : List (List Char × List Char) :=
  (wwwSplits cs).flatMap (fun w =>
    (gSplits w.2).flatMap (fun g =>
      (loopSplits g.2).flatMap (fun l =>
        (tailSplits l.2).map (fun tl => (w.1 ++ (g.1 ++ (l.1 ++ tl.1)), tl.2)))))

/-- Match of alternative `B` at the head of the input: the first split in
preference order. -/
def matchB (cs : List Char) : Option (List Char × List Char) :=
  (bSplits cs).head?

/-- Fuelled scan of `re.findall`: at each position try `A`, then `B`;
on a match, emit it and resume after it, otherwise advance one character.
Fuel `cs.length` is sufficient since every match is non-empty. -/
def findallF : Nat → List Char → List (List Char)
  | 0, _ => []
  | fuel + 1, cs =>
      match matchA cs, matchB cs, cs with
      | some p, _, _ => p.1 :: findallF fuel p.2
      | none, some p, _ => p.1 :: findallF fuel p.2
      | none, none, [] => []
      | none, none, _ :: t => findallF fuel t

/-- Model of `url_pattern.findall(text)`. -/
def findall (cs : List Char) : List (List Char) :=
  findallF cs.length cs

/-- The protocol-prepending normalization inside the extraction loop
(lines 96–98): prepend `https://` unless the string already starts with
`http://` or `https://`. -/
def normalizeUrl (u : List Char) : List Char :=
  if leadsWith httpPrefix u || leadsWith httpsPrefix u then u
  else httpsPrefix ++ u

/-- Model of `extract_urls_from_text` (lines 78–101): empty input short
circuit; for each regex match, `strip()` it, drop it if it is empty or
ends with `'.'`, otherwise append its normalized form; finally
`list(set(...))`, modelled by `List.dedup` (Python's set order is
unspecified; all claims about the result are membership claims). -/
def extract_urls_from_text (text : String) : List String :=
  if text = "" then []
  else
    let urls := findall text.data
    let cleaned := urls.foldl (fun acc url =>
      let u := pyStrip url
      if u ≠ [] ∧ u.getLast? ≠ some '.' then acc ++ [normalizeUrl u]
      else acc) []
    cleaned.dedup.map (fun l => String.mk l)

/-! ### C7 — what one regex match contributes to the extraction result -/

/-- The per-match step of the extraction loop, as a partial function:
`strip()` the match, drop it when it is empty or ends with `'.'`,
otherwise normalize it. -/
def extractStep (url : List Char) : Option (List Char) :=
  let u := pyStrip url
  if u ≠ [] ∧ u.getLast? ≠ some '.' then some (normalizeUrl u) else none

/-- The extraction loop accumulates exactly the `filterMap` of the
per-match step over the match list. -/
theorem extract_fold_eq (urls : List (List Char)) :
    ∀ acc : List (List Char),
      urls.foldl (fun acc url =>
        let u := pyStrip url
        if u ≠ [] ∧ u.getLast? ≠ some '.' then acc ++ [normalizeUrl u]
        else acc) acc
      = acc ++ urls.filterMap extractStep := by
  induction urls with
  | nil => intro acc; simp
  | cons x t ih =>
      intro acc
      rw [List.foldl_cons, List.filterMap_cons]
      dsimp only
      by_cases h : pyStrip x ≠ [] ∧ (pyStrip x).getLast? ≠ some '.'
      · rw [if_pos h, ih]
        have hstep : extractStep x = some (normalizeUrl (pyStrip x)) := by
          unfold extractStep
          rw [if_pos h]
        rw [hstep]
        simp
      · rw [if_neg h, ih]
        have hstep : extractStep x = none := by
          unfold extractStep
          rw [if_neg h]
        rw [hstep]

/-- Strings are equal exactly when their character lists are. -/
theorem stringMk_inj : Function.Injective (fun l : List Char => String.mk l) :=
  fun _ _ h => congrArg String.data h

/-- Membership in the extraction result: `u` is extracted exactly when
some regex match survives the drop test and normalizes to `u`. -/
theorem extract_mem_iff (text : String) (u : String) :
    u ∈ extract_urls_from_text text ↔
      ∃ m, m ∈ findall text.data ∧ pyStrip m ≠ [] ∧
        (pyStrip m).getLast? ≠ some '.' ∧ u.data = normalizeUrl (pyStrip m) := by
  by_cases ht : text = ""
  · subst ht
    constructor
    · intro h
      simp [extract_urls_from_text] at h
    · rintro ⟨m, hm, -⟩
      have : findall "".data = [] := rfl
      rw [this] at hm
      cases hm
  · unfold extract_urls_from_text
    rw [if_neg ht]
    dsimp only
    rw [extract_fold_eq, List.nil_append]
    constructor
    · intro h
      obtain ⟨l, hl, hlu⟩ := List.mem_map.mp h
      obtain ⟨m, hm, hstep⟩ := List.mem_filterMap.mp (List.mem_dedup.mp hl)
      unfold extractStep at hstep
      by_cases hc : pyStrip m ≠ [] ∧ (pyStrip m).getLast? ≠ some '.'
      · rw [if_pos hc] at hstep
        refine ⟨m, hm, hc.1, hc.2, ?_⟩
        rw [← hlu]
        exact (Option.some_inj.mp hstep).symm
      · rw [if_neg hc] at hstep
        cases hstep
    · rintro ⟨m, hm, h1, h2, h3⟩
      refine List.mem_map.mpr ⟨normalizeUrl (pyStrip m), ?_, ?_⟩
      · refine List.mem_dedup.mpr (List.mem_filterMap.mpr ⟨m, hm, ?_⟩)
        unfold extractStep
        rw [if_pos ⟨h1, h2⟩]
      · exact (congrArg String.mk h3).symm

/-- The extraction result never contains duplicates. -/
theorem extract_nodup (text : String) : (extract_urls_from_text text).Nodup := by
  unfold extract_urls_from_text
  split
  · exact List.nodup_nil
  · exact (List.nodup_dedup _).map stringMk_inj

/-- C7 (amended): for every input text, URL extraction `strip()`s each
regex match (a no-op for this pattern), DROPS any match that is then empty
or ends with `'.'` (rather than stripping trailing punctuation — trailing
punctuation other than a final `'.'`, e.g. a comma, is preserved),
prepends `https://` to every surviving match that does not already start
with `http://` or `https://`, and returns the deduplicated set of the
resulting strings: a match not ending in `'.'` contributes its normalized
form exactly once (the result has no duplicates), and a match ending in
`'.'` contributes nothing. -/
theorem extract_membership_amended (text : String) (u : String) :
    (u ∈ extract_urls_from_text text ↔
      ∃ m, m ∈ findall text.data ∧ pyStrip m ≠ [] ∧
        (pyStrip m).getLast? ≠ some '.' ∧ u.data = normalizeUrl (pyStrip m)) ∧
    (extract_urls_from_text text).Nodup :=
  ⟨extract_mem_iff text u, extract_nodup text⟩

/-- Trailing-punctuation stripping as described by claim C7 (the claim's
words; the source has no such step). -/
def stripTrailingPunct (u : List Char) : List Char :=
  (u.reverse.dropWhile (fun c => decide (c ∈ ['.', ',', ';', ':', '!', '?']))).reverse

/-- Extraction as described by claim C7: strip trailing punctuation from
each regex match, normalize it, deduplicate — every match contributes its
normalized form.  This definition follows the claim's words, to be
compared with the source-derived extraction. -/
def specExtractC7 (text : String) : List String :=
  ((findall text.data).map (fun m => normalizeUrl (stripTrailingPunct m))).dedup.map
    (fun l => String.mk l)

/-- Counterexample to C7: on the text `http://a.com.` the pattern has
exactly one match, `http://a.com.`; the claim predicts it contributes its
punctuation-stripped normalized form `http://a.com`, but the source drops
any match ending in `'.'`, so the extraction result is empty.  Moreover a
trailing comma is preserved, not stripped: on `visit http://a.com, now`
the source returns `http://a.com,` where the claim predicts
`http://a.com`. -/
theorem extract_trailing_punct_counterexample :
    findall "http://a.com.".data = ["http://a.com.".data] ∧
    extract_urls_from_text "http://a.com." = [] ∧
    specExtractC7 "http://a.com." = ["http://a.com"] ∧
    ¬ (∀ m ∈ findall "http://a.com.".data,
        String.mk (normalizeUrl (stripTrailingPunct m)) ∈
          extract_urls_from_text "http://a.com.") ∧
    extract_urls_from_text "visit http://a.com, now" = ["http://a.com,"] ∧
    specExtractC7 "visit http://a.com, now" = ["http://a.com"] :=
  ⟨by decide, by decide, by decide, by decide, by decide, by decide⟩

/-! ### C8 — shape lemmas for the regex matchers -/

/-- A prefix of the maximal `p`-run of a list satisfies `p` throughout. -/
theorem all_take_of_le_takeWhile (p : Char → Bool) (t : List Char) (k : Nat)
    (hk : k ≤ (t.takeWhile p).length) : (t.take k).all p = true := by
  have hsub : t.take k = (t.takeWhile p).take k := by
    conv_lhs => rw [← List.takeWhile_append_dropWhile (p := p) (l := t)]
    rw [List.take_append_eq_append_take, Nat.sub_eq_zero_of_le hk,
      List.take_zero, List.append_nil]
  rw [hsub, List.all_eq_true]
  intro c hc
  exact List.mem_takeWhile_imp (List.take_subset _ _ hc)

/-- Every split produced by `gSplits` is a real split of the input into a
non-empty group of letters, digits and hyphens, and the rest. -/
theorem gSplits_mem (cs : List Char) :
    ∀ p ∈ gSplits cs, p.1 ++ p.2 = cs ∧ p.1 ≠ [] ∧ p.1.all isAlnumHyChar = true := by
  intro p hp
  cases cs with
  | nil => simp [gSplits] at hp
  | cons c t =>
    unfold gSplits at hp
    dsimp only at hp
    by_cases hc : isAlnumChar c = true
    · rw [if_pos hc] at hp
      rcases List.mem_append.mp hp with hp1 | hp2
      · obtain ⟨k, hkmem, hk⟩ := List.mem_filterMap.mp hp1
        by_cases hkle : k ≤ (t.takeWhile isAlnumHyChar).length
        · rw [if_pos hkle] at hk
          cases hd : t.drop k with
          | nil => rw [hd] at hk; simp at hk
          | cons d r =>
              rw [hd] at hk
              dsimp only at hk
              by_cases hdAl : isAlnumChar d = true
              · rw [if_pos hdAl] at hk
                obtain hpe := Option.some_inj.mp hk
                subst hpe
                refine ⟨?_, by simp, ?_⟩
                · show (c :: (t.take k ++ [d])) ++ r = c :: t
                  have : t.take k ++ [d] ++ r = t := by
                    rw [List.append_assoc, List.singleton_append, ← hd,
                      List.take_append_drop]
                  simpa [List.cons_append] using this
                · have h1 : isAlnumHyChar c = true := by
                    simp [isAlnumHyChar, hc]
                  have h2 : (t.take k).all isAlnumHyChar = true :=
                    all_take_of_le_takeWhile _ _ _ hkle
                  have h3 : isAlnumHyChar d = true := by
                    simp [isAlnumHyChar, hdAl]
                  simp [h1, h3, List.all_eq_true] at h2 ⊢
                  intro x hx
                  exact (List.all_eq_true.mp (by simpa using h2)) x hx
              · rw [if_neg hdAl] at hk; cases hk
        · rw [if_neg hkle] at hk; cases hk
      · have hpe : p = ([c], t) := by simpa using hp2
        subst hpe
        refine ⟨rfl, by simp, by simp [isAlnumHyChar, hc]⟩
    · rw [if_neg hc] at hp; cases hp

/-- Every split produced by `iterSplits` is a real split: a dot followed
by a group, at least two characters, all domain characters. -/
theorem iterSplits_mem (cs : List Char) :
    ∀ p ∈ iterSplits cs, p.1 ++ p.2 = cs ∧ 2 ≤ p.1.length ∧
      p.1.all isDomainChar = true := by
  intro p hp
  unfold iterSplits at hp
  split at hp
  · next t =>
      obtain ⟨q, hq, hpe⟩ := List.mem_map.mp hp
      obtain ⟨hsplit, hne, hall⟩ := gSplits_mem t q hq
      subst hpe
      refine ⟨by simpa using hsplit, ?_, ?_⟩
      · have : 1 ≤ q.1.length := List.length_pos.mpr hne
        simp only [List.length_cons]
        omega
      · rw [List.all_cons, Bool.and_eq_true]
        constructor
        · decide
        · rw [List.all_eq_true] at hall ⊢
          intro x hx
          have hdc : isAlnumHyChar x = true := hall x hx
          simp only [isDomainChar, isAlnumHyChar, Bool.or_eq_true] at hdc ⊢
          tauto
  · cases hp

/-- Every split produced by the fuelled loop is a real split whose
consumed part is made of domain characters. -/
theorem loopSplitsF_mem (fuel : Nat) : ∀ (cs : List Char) (p : List Char × List Char),
    p ∈ loopSplitsF fuel cs → p.1 ++ p.2 = cs ∧ p.1.all isDomainChar = true := by
  induction fuel with
  | zero =>
      intro cs p hp
      have hpe : p = ([], cs) := by simpa [loopSplitsF] using hp
      subst hpe
      exact ⟨rfl, rfl⟩
  | succ f ih =>
      intro cs p hp
      unfold loopSplitsF at hp
      rcases List.mem_append.mp hp with hp1 | hp2
      · obtain ⟨q, hq, hin⟩ := List.mem_flatMap.mp hp1
        obtain ⟨w, hw, hpe⟩ := List.mem_map.mp hin
        obtain ⟨hq1, _, hq3⟩ := iterSplits_mem cs q hq
        obtain ⟨hw1, hw2⟩ := ih q.2 w hw
        subst hpe
        constructor
        · show q.1 ++ w.1 ++ w.2 = cs
          rw [List.append_assoc, hw1, hq1]
        · show (q.1 ++ w.1).all isDomainChar = true
          rw [List.all_append, hq3, hw2]
          rfl
      · have hpe : p = ([], cs) := by simpa using hp2
        subst hpe
        exact ⟨rfl, rfl⟩

/-- Every split produced by `tailSplits` is a real split: a dot followed
by at least two letters; all characters are domain characters and the
last one is a letter. -/
theorem tailSplits_mem (cs : List Char) :
    ∀ p ∈ tailSplits cs, p.1 ++ p.2 = cs ∧ p.1.all isDomainChar = true ∧
      ∃ c, p.1.getLast? = some c ∧ c.isAlpha = true := by
  intro p hp
  unfold tailSplits at hp
  split at hp
  · next t =>
      obtain ⟨k, hkmem, hk⟩ := List.mem_filterMap.mp hp
      by_cases h2 : 2 ≤ k
      · rw [if_pos h2] at hk
        obtain hpe := Option.some_inj.mp hk
        subst hpe
        have hkle : k ≤ (t.takeWhile Char.isAlpha).length := by
          have := List.mem_reverse.mp hkmem
          have := List.mem_range.mp this
          omega
        have halpha : (t.take k).all Char.isAlpha = true :=
          all_take_of_le_takeWhile _ _ _ hkle
        have hne : t.take k ≠ [] := by
          have hlen : (t.take k).length = min k t.length := List.length_take _ _
          intro hcon
          rw [hcon] at hlen
          simp at hlen
          have htw : (t.takeWhile Char.isAlpha).length ≤ t.length := by
            conv_rhs => rw [← List.takeWhile_append_dropWhile (p := Char.isAlpha) (l := t)]
            rw [List.length_append]
            omega
          omega
        refine ⟨?_, ?_, ?_⟩
        · show '.' :: t.take k ++ t.drop k = '.' :: t
          rw [List.cons_append, List.take_append_drop]
        · rw [List.all_cons, Bool.and_eq_true]
          refine ⟨by decide, ?_⟩
          rw [List.all_eq_true] at halpha ⊢
          intro x hx
          have hx2 := halpha x hx
          simp only [isDomainChar, isAlnumChar, Bool.or_eq_true]
          tauto
        · refine ⟨(t.take k).getLast hne, ?_, ?_⟩
          · show ('.' :: t.take k).getLast? = some _
            rw [show ('.' :: t.take k) = ['.'] ++ t.take k from rfl,
              List.getLast?_append, List.getLast?_eq_getLast _ hne]
            rfl
          · exact List.all_eq_true.mp halpha _ (List.getLast_mem hne)
      · rw [if_neg h2] at hk
        cases hk
  · cases hp

/-- A successful `leadsWith` means the list literally starts with the
pattern. -/
theorem leadsWith_true_eq (p : List Char) : ∀ s, leadsWith p s = true →
    s = p ++ s.drop p.length := by
  induction p with
  | nil => intro s h; simp
  | cons c cp ih =>
      intro s h
      cases s with
      | nil => simp [leadsWith] at h
      | cons d t =>
          rw [leadsWith, Bool.and_eq_true] at h
          obtain ⟨h1, h2⟩ := h
          have hcd : c = d := eq_of_beq h1
          subst hcd
          have := ih t h2
          simp only [List.length_cons, List.cons_append, List.drop_succ_cons]
          rw [← this]

/-- Every split produced by `wwwSplits` is a real split made of domain
characters. -/
theorem wwwSplits_mem (cs : List Char) :
    ∀ p ∈ wwwSplits cs, p.1 ++ p.2 = cs ∧ p.1.all isDomainChar = true := by
  intro p hp
  unfold wwwSplits at hp
  rcases List.mem_append.mp hp with hp1 | hp2
  · by_cases hl : leadsWith wwwPrefix cs = true
    · rw [if_pos hl] at hp1
      have hpe : p = (wwwPrefix, cs.drop 4) := by simpa using hp1
      subst hpe
      constructor
      · show wwwPrefix ++ cs.drop 4 = cs
        have hcs := leadsWith_true_eq wwwPrefix cs hl
        simpa using hcs.symm
      · show wwwPrefix.all isDomainChar = true
        decide
    · rw [if_neg hl] at hp1
      cases hp1
  · have hpe : p = ([], cs) := by simpa using hp2
    subst hpe
    exact ⟨rfl, rfl⟩

/-- Every split produced by `bSplits` is a real split of the input; the
match is non-empty, consists of domain characters, and ends in a letter. -/
theorem bSplits_mem (cs : List Char) :
    ∀ p ∈ bSplits cs, p.1 ++ p.2 = cs ∧ p.1 ≠ [] ∧ p.1.all isDomainChar = true ∧
      ∃ c, p.1.getLast? = some c ∧ c.isAlpha = true := by
  intro p hp
  unfold bSplits at hp
  obtain ⟨w, hw, hp1⟩ := List.mem_flatMap.mp hp
  obtain ⟨g, hg, hp2⟩ := List.mem_flatMap.mp hp1
  obtain ⟨l, hl, hp3⟩ := List.mem_flatMap.mp hp2
  obtain ⟨tl, htl, hpe⟩ := List.mem_map.mp hp3
  obtain ⟨hw1, hw2⟩ := wwwSplits_mem cs w hw
  obtain ⟨hg1, hgne, hg2⟩ := gSplits_mem w.2 g hg
  obtain ⟨hl1, hl2⟩ := loopSplitsF_mem _ g.2 l hl
  obtain ⟨ht1, ht2, c, hc1, hc2⟩ := tailSplits_mem l.2 tl htl
  subst hpe
  have htlne : tl.1 ≠ [] := by
    intro hcon
    rw [hcon] at hc1
    cases hc1
  refine ⟨?_, ?_, ?_, ?_⟩
  · show w.1 ++ (g.1 ++ (l.1 ++ tl.1)) ++ tl.2 = cs
    rw [List.append_assoc, List.append_assoc, List.append_assoc, ht1, hl1, hg1, hw1]
  · simp [htlne, hgne]
  · show (w.1 ++ (g.1 ++ (l.1 ++ tl.1))).all isDomainChar = true
    rw [List.all_append, List.all_append, List.all_append, hw2, hl2, ht2]
    have : g.1.all isDomainChar = true := by
      rw [List.all_eq_true] at hg2 ⊢
      intro x hx
      have := hg2 x hx
      simp only [isDomainChar, isAlnumHyChar, Bool.or_eq_true] at this ⊢
      tauto
    rw [this]
    rfl
  · refine ⟨c, ?_, hc2⟩
    rw [List.getLast?_append, List.getLast?_append, List.getLast?_append, hc1]
    rfl

/-- Unfolding: a successful `A`-match is emitted and the scan resumes. -/
theorem findallF_succ_A (f : Nat) (cs : List Char) (p : List Char × List Char)
    (h : matchA cs = some p) : findallF (f + 1) cs = p.1 :: findallF f p.2 := by
  rw [findallF.eq_def]
  dsimp only
  rw [h]

/-- Unfolding: with no `A`-match, a successful `B`-match is emitted. -/
theorem findallF_succ_B (f : Nat) (cs : List Char) (p : List Char × List Char)
    (hA : matchA cs = none) (hB : matchB cs = some p) :
    findallF (f + 1) cs = p.1 :: findallF f p.2 := by
  rw [findallF.eq_def]
  dsimp only
  rw [hA, hB]

/-- Unfolding: with no match at this position, the scan skips a character. -/
theorem findallF_succ_skip (f : Nat) (c : Char) (t : List Char)
    (hA : matchA (c :: t) = none) (hB : matchB (c :: t) = none) :
    findallF (f + 1) (c :: t) = findallF f t := by
  rw [findallF.eq_def]
  dsimp only
  rw [hA, hB]

/-- The scan yields nothing without fuel. -/
theorem findallF_zero (cs : List Char) : findallF 0 cs = [] := rfl

/-- The scan yields nothing on the empty input. -/
theorem findallF_nil (f : Nat) : findallF f [] = [] := by
  cases f with
  | zero => rfl
  | succ f => rfl

/-- A list starts with itself followed by anything. -/
theorem leadsWith_append_self (p : List Char) : ∀ t, leadsWith p (p ++ t) = true := by
  induction p with
  | nil => intro t; rfl
  | cons c cp ih =>
      intro t
      rw [List.cons_append, leadsWith, Bool.and_eq_true]
      exact ⟨beq_self_eq_true c, ih t⟩

/-- The shape of every output of the extractor: a scheme literal followed
by a non-empty run of URL characters. -/
def TokenShape (u : List Char) : Prop :=
  ∃ w, (u = httpPrefix ++ w ∨ u = httpsPrefix ++ w) ∧ w ≠ [] ∧
    w.all isUrlChar = true

/-- A successful `A`-match is a scheme literal plus a non-empty URL-character
run, and it splits the input. -/
theorem matchA_some_shape (cs : List Char) (p : List Char × List Char)
    (h : matchA cs = some p) : TokenShape p.1 ∧ p.1 ++ p.2 = cs := by
  unfold matchA at h
  by_cases h1 : leadsWith httpsPrefix cs = true
  · rw [if_pos h1] at h
    dsimp only at h
    by_cases h2 : (cs.drop 8).takeWhile isUrlChar = []
    · rw [if_pos h2] at h
      cases h
    · rw [if_neg h2] at h
      obtain hpe := Option.some_inj.mp h
      rw [← hpe]
      refine ⟨⟨(cs.drop 8).takeWhile isUrlChar, Or.inr rfl, h2, ?_⟩, ?_⟩
      · rw [List.all_eq_true]
        intro x hx
        exact List.mem_takeWhile_imp hx
      · show httpsPrefix ++ (cs.drop 8).takeWhile isUrlChar ++
          (cs.drop 8).dropWhile isUrlChar = cs
        rw [List.append_assoc, List.takeWhile_append_dropWhile]
        exact (leadsWith_true_eq httpsPrefix cs h1).symm
  · rw [if_neg h1] at h
    by_cases h1b : leadsWith httpPrefix cs = true
    · rw [if_pos h1b] at h
      dsimp only at h
      by_cases h2 : (cs.drop 7).takeWhile isUrlChar = []
      · rw [if_pos h2] at h
        cases h
      · rw [if_neg h2] at h
        obtain hpe := Option.some_inj.mp h
        rw [← hpe]
        refine ⟨⟨(cs.drop 7).takeWhile isUrlChar, Or.inl rfl, h2, ?_⟩, ?_⟩
        · rw [List.all_eq_true]
          intro x hx
          exact List.mem_takeWhile_imp hx
        · show httpPrefix ++ (cs.drop 7).takeWhile isUrlChar ++
            (cs.drop 7).dropWhile isUrlChar = cs
          rw [List.append_assoc, List.takeWhile_append_dropWhile]
          exact (leadsWith_true_eq httpPrefix cs h1b).symm
    · rw [if_neg h1b] at h
      cases h

/-- A successful `B`-match is a non-empty run of domain characters ending
in a letter, and it splits the input. -/
theorem matchB_some_shape (cs : List Char) (p : List Char × List Char)
    (h : matchB cs = some p) :
    p.1 ++ p.2 = cs ∧ p.1 ≠ [] ∧ p.1.all isDomainChar = true ∧
      ∃ c, p.1.getLast? = some c ∧ c.isAlpha = true :=
  bSplits_mem cs p (List.mem_of_mem_head? h)

/-- The shape of every `findall` match: an `A`-token or a `B`-domain. -/
def MatchShape (m : List Char) : Prop :=
  TokenShape m ∨
    (m ≠ [] ∧ m.all isDomainChar = true ∧
      ∃ c, m.getLast? = some c ∧ c.isAlpha = true)

/-- Every match produced by the scan has one of the two shapes. -/
theorem findallF_mem_shape (fuel : Nat) : ∀ (cs m : List Char),
    m ∈ findallF fuel cs → MatchShape m := by
  induction fuel with
  | zero =>
      intro cs m hm
      rw [findallF_zero] at hm
      cases hm
  | succ f ih =>
      intro cs m hm
      cases hA : matchA cs with
      | some p =>
          rw [findallF_succ_A f cs p hA] at hm
          rcases List.mem_cons.mp hm with rfl | hm2
          · exact Or.inl (matchA_some_shape cs p hA).1
          · exact ih _ _ hm2
      | none =>
          cases hB : matchB cs with
          | some p =>
              rw [findallF_succ_B f cs p hA hB] at hm
              rcases List.mem_cons.mp hm with rfl | hm2
              · obtain ⟨-, hb2, hb3, hb4⟩ := matchB_some_shape cs p hB
                exact Or.inr ⟨hb2, hb3, hb4⟩
              · exact ih _ _ hm2
          | none =>
              cases cs with
              | nil =>
                  rw [findallF_nil] at hm
                  cases hm
              | cons c t =>
                  rw [findallF_succ_skip f c t hA hB] at hm
                  exact ih _ _ hm

/-- URL characters are never whitespace. -/
theorem urlChar_not_ws (c : Char) (h : isUrlChar c = true) :
    c.isWhitespace = false := by
  cases hw : c.isWhitespace with
  | false => rfl
  | true =>
      exfalso
      have hcases : ((c = ' ' ∨ c = '\t') ∨ c = '\r') ∨ c = '\n' := by
        simpa [Char.isWhitespace, Bool.or_eq_true, decide_eq_true_eq] using hw
      rcases hcases with ((rfl | rfl) | rfl) | rfl <;> exact absurd h (by decide)

/-- Domain characters are URL characters. -/
theorem domainChar_url (c : Char) (h : isDomainChar c = true) :
    isUrlChar c = true := by
  simp only [isDomainChar, isAlnumChar, Bool.or_eq_true, beq_iff_eq] at h
  rcases h with ((h | h) | rfl) | rfl
  · simp [isUrlChar, h]
  · simp [isUrlChar, h]
  · decide
  · decide

/-- Tokens contain no whitespace. -/
theorem tokenShape_no_ws (u : List Char) (h : TokenShape u) :
    ∀ c ∈ u, c.isWhitespace = false := by
  obtain ⟨w, hpre, _, hall⟩ := h
  intro c hc
  rcases hpre with rfl | rfl <;>
    rcases List.mem_append.mp hc with hc1 | hc2
  · simp only [httpPrefix, List.mem_cons, List.not_mem_nil, or_false] at hc1
    rcases hc1 with rfl | rfl | rfl | rfl | rfl | rfl | rfl <;> decide
  · exact urlChar_not_ws c (List.all_eq_true.mp hall c hc2)
  · simp only [httpsPrefix, List.mem_cons, List.not_mem_nil, or_false] at hc1
    rcases hc1 with rfl | rfl | rfl | rfl | rfl | rfl | rfl | rfl <;> decide
  · exact urlChar_not_ws c (List.all_eq_true.mp hall c hc2)

/-- Tokens are at least eight characters long. -/
theorem tokenShape_length (u : List Char) (h : TokenShape u) : 8 ≤ u.length := by
  obtain ⟨w, hpre, hne, -⟩ := h
  have hw : 1 ≤ w.length := List.length_pos.mpr hne
  rcases hpre with rfl | rfl <;>
    (rw [List.length_append]
     simp only [httpPrefix, httpsPrefix, List.length_cons, List.length_nil]
     omega)

/-- The normalization step leaves a token unchanged. -/
theorem tokenShape_normalize (u : List Char) (h : TokenShape u) :
    normalizeUrl u = u := by
  obtain ⟨w, hpre, -, -⟩ := h
  unfold normalizeUrl
  rcases hpre with rfl | rfl
  · rw [if_pos (by rw [leadsWith_append_self, Bool.true_or])]
  · rw [if_pos (by rw [leadsWith_append_self, Bool.or_true])]

/-- `strip()` leaves a whitespace-free list unchanged. -/
theorem pyStrip_eq_self (u : List Char) (h : ∀ c ∈ u, c.isWhitespace = false) :
    pyStrip u = u := by
  unfold pyStrip
  have h1 : u.dropWhile Char.isWhitespace = u := by
    cases u with
    | nil => rfl
    | cons c t =>
        rw [List.dropWhile_cons, h c (List.mem_cons_self c t)]
        simp
  rw [h1]
  have h2 : u.reverse.dropWhile Char.isWhitespace = u.reverse := by
    cases hr : u.reverse with
    | nil => rfl
    | cons c t =>
        rw [List.dropWhile_cons,
          h c (List.mem_reverse.mp (hr ▸ List.mem_cons_self c t))]
        simp
  rw [h2, List.reverse_reverse]

/-- `takeWhile`/`dropWhile` on a run followed by a blocked tail. -/
theorem takeWhile_run_append (p : Char → Bool) (w : List Char)
    (hw : ∀ c ∈ w, p c = true) (tail : List Char)
    (ht : tail = [] ∨ ∃ c t', tail = c :: t' ∧ p c = false) :
    (w ++ tail).takeWhile p = w ∧ (w ++ tail).dropWhile p = tail := by
  induction w with
  | nil =>
      rcases ht with rfl | ⟨c, t', rfl, hc⟩
      · exact ⟨rfl, rfl⟩
      · simp [List.takeWhile_cons, List.dropWhile_cons, hc]
  | cons a w ih =>
      have ha : p a = true := hw a (List.mem_cons_self a w)
      obtain ⟨ih1, ih2⟩ := ih (fun c hc => hw c (List.mem_cons_of_mem a hc))
      rw [List.cons_append]
      constructor
      · rw [List.takeWhile_cons, if_pos ha, ih1]
      · rw [List.dropWhile_cons, if_pos ha, ih2]

/-- `matchA` on a token followed by nothing or by a space consumes exactly
the token. -/
theorem matchA_on_token (u tail : List Char) (hu : TokenShape u)
    (ht : tail = [] ∨ ∃ t', tail = ' ' :: t') :
    matchA (u ++ tail) = some (u, tail) := by
  obtain ⟨w, hpre, hne, hall⟩ := hu
  have ht' : tail = [] ∨ ∃ c t', tail = c :: t' ∧ isUrlChar c = false := by
    rcases ht with rfl | ⟨t', rfl⟩
    · exact Or.inl rfl
    · exact Or.inr ⟨' ', t', rfl, by decide⟩
  have hwall : ∀ c ∈ w, isUrlChar c = true := List.all_eq_true.mp hall
  obtain ⟨htake, hdrop⟩ := takeWhile_run_append isUrlChar w hwall tail ht'
  rcases hpre with rfl | rfl
  · have hfalse : leadsWith httpsPrefix ((httpPrefix ++ w) ++ tail) = false := by
      rw [List.append_assoc]
      rfl
    have htrue : leadsWith httpPrefix ((httpPrefix ++ w) ++ tail) = true := by
      rw [List.append_assoc]
      exact leadsWith_append_self httpPrefix (w ++ tail)
    unfold matchA
    rw [hfalse]
    simp only [Bool.false_eq_true, if_false]
    rw [htrue]
    simp only [if_true]
    have hdropped : ((httpPrefix ++ w) ++ tail).drop 7 = w ++ tail := by
      rw [List.append_assoc]
      exact List.drop_left httpPrefix (w ++ tail)
    rw [hdropped, htake, hdrop, if_neg hne]
  · have htrue : leadsWith httpsPrefix ((httpsPrefix ++ w) ++ tail) = true := by
      rw [List.append_assoc]
      exact leadsWith_append_self httpsPrefix (w ++ tail)
    unfold matchA
    rw [htrue]
    simp only [if_true]
    have hdropped : ((httpsPrefix ++ w) ++ tail).drop 8 = w ++ tail := by
      rw [List.append_assoc]
      exact List.drop_left httpsPrefix (w ++ tail)
    rw [hdropped, htake, hdrop, if_neg hne]

/-- Neither alternative matches at a space. -/
theorem matchA_space (t : List Char) : matchA (' ' :: t) = none := rfl

/-- Neither alternative matches at a space. -/
theorem matchB_space (t : List Char) : matchB (' ' :: t) = none := rfl

/-- The space-separated listing of a list of tokens. -/
def joinSpace : List (List Char) → List Char
  | [] => []
  | [u] => u
  | u :: v :: rest => u ++ ' ' :: joinSpace (v :: rest)

/-- A space-separated listing of the extracted set, as a string. -/
def listing (us : List String) : String :=
  ⟨joinSpace (us.map String.data)⟩

/-- Scanning a space-separated listing of tokens recovers exactly the
tokens, provided there is enough fuel. -/
theorem findallF_listing : ∀ (us : List (List Char)),
    (∀ u ∈ us, TokenShape u) →
    ∀ f, (joinSpace us).length ≤ f → findallF f (joinSpace us) = us := by
  intro us
  induction us with
  | nil => intro _ f _; exact findallF_nil f
  | cons u rest ih =>
      intro hshape f hf
      have hu : TokenShape u := hshape u (List.mem_cons_self u rest)
      cases rest with
      | nil =>
          have hlen : 8 ≤ u.length := tokenShape_length u hu
          have hju : joinSpace [u] = u := rfl
          rw [hju] at hf ⊢
          obtain ⟨f', rfl⟩ : ∃ f', f = f' + 1 := by
            cases f with
            | zero => omega
            | succ f' => exact ⟨f', rfl⟩
          have hm : matchA (u ++ []) = some (u, []) :=
            matchA_on_token u [] hu (Or.inl rfl)
          rw [List.append_nil] at hm
          rw [findallF_succ_A f' u (u, []) hm, findallF_nil]
      | cons v rest' =>
          have hj : joinSpace (u :: v :: rest') = u ++ ' ' :: joinSpace (v :: rest') := rfl
          rw [hj] at hf ⊢
          have hlen : 8 ≤ u.length := tokenShape_length u hu
          have hflen : u.length + (joinSpace (v :: rest')).length + 1 ≤ f := by
            rw [List.length_append] at hf
            simpa [Nat.add_comm, Nat.add_left_comm] using hf
          obtain ⟨f', rfl⟩ : ∃ f', f = f' + 1 := by
            cases f with
            | zero => omega
            | succ f' => exact ⟨f', rfl⟩
          have hm : matchA (u ++ ' ' :: joinSpace (v :: rest')) =
              some (u, ' ' :: joinSpace (v :: rest')) :=
            matchA_on_token u _ hu (Or.inr ⟨_, rfl⟩)
          rw [findallF_succ_A f' _ _ hm]
          obtain ⟨f2, rfl⟩ : ∃ f2, f' = f2 + 1 := by
            cases f' with
            | zero => omega
            | succ f2 => exact ⟨f2, rfl⟩
          rw [findallF_succ_skip f2 ' ' _ (matchA_space _) (matchB_space _)]
          rw [ih (fun x hx => hshape x (List.mem_cons_of_mem u hx)) f2 (by omega)]

/-- A list of domain characters cannot start with a scheme literal (both
contain `':'`). -/
theorem domain_no_scheme (m : List Char) (hdom : m.all isDomainChar = true) :
    leadsWith httpPrefix m = false ∧ leadsWith httpsPrefix m = false := by
  constructor
  · cases h : leadsWith httpPrefix m with
    | false => rfl
    | true =>
        exfalso
        have hm := leadsWith_true_eq httpPrefix m h
        have hcol : ':' ∈ m := by
          rw [hm]
          exact List.mem_append_left _ (by decide)
        exact absurd (List.all_eq_true.mp hdom ':' hcol) (by decide)
  · cases h : leadsWith httpsPrefix m with
    | false => rfl
    | true =>
        exfalso
        have hm := leadsWith_true_eq httpsPrefix m h
        have hcol : ':' ∈ m := by
          rw [hm]
          exact List.mem_append_left _ (by decide)
        exact absurd (List.all_eq_true.mp hdom ':' hcol) (by decide)

/-- A `filterMap` that fixes every element of a list is the identity. -/
theorem filterMap_eq_self {α : Type} (l : List α) (f : α → Option α)
    (h : ∀ a ∈ l, f a = some a) : l.filterMap f = l := by
  induction l with
  | nil => rfl
  | cons a t ih =>
      rw [List.filterMap_cons_some (h a (List.mem_cons_self a t)),
        ih (fun x hx => h x (List.mem_cons_of_mem a hx))]

/-- Every extracted URL is a scheme-prefixed token of URL characters that
does not end in a dot. -/
theorem extract_mem_good (text : String) (u : String)
    (hu : u ∈ extract_urls_from_text text) :
    TokenShape u.data ∧ u.data.getLast? ≠ some '.' := by
  obtain ⟨m, hm, hmne, hlast, hdata⟩ := (extract_mem_iff text u).mp hu
  have hms : MatchShape m := findallF_mem_shape _ _ _ hm
  rcases hms with htok | ⟨hBne, hdom, c, hc1, hc2⟩
  · have hnw := tokenShape_no_ws m htok
    have hstrip : pyStrip m = m := pyStrip_eq_self m hnw
    rw [hstrip] at hlast hdata
    rw [tokenShape_normalize m htok] at hdata
    rw [hdata]
    exact ⟨htok, hlast⟩
  · have hnw : ∀ x ∈ m, x.isWhitespace = false := fun x hx =>
      urlChar_not_ws x (domainChar_url x (List.all_eq_true.mp hdom x hx))
    have hstrip : pyStrip m = m := pyStrip_eq_self m hnw
    rw [hstrip] at hlast hdata
    obtain ⟨hs1, hs2⟩ := domain_no_scheme m hdom
    have hnorm : normalizeUrl m = httpsPrefix ++ m := by
      unfold normalizeUrl
      rw [hs1, hs2]
      rfl
    rw [hnorm] at hdata
    rw [hdata]
    constructor
    · refine ⟨m, Or.inr rfl, hBne, ?_⟩
      rw [List.all_eq_true]
      intro x hx
      exact domainChar_url x (List.all_eq_true.mp hdom x hx)
    · rw [List.getLast?_append, hc1]
      intro hcon
      have hcdot : c = '.' := by simpa using hcon
      subst hcdot
      exact absurd hc2 (by decide)

/-- Re-extracting from a space-separated listing of good tokens returns
exactly those tokens. -/
theorem extract_listing_exact (E : List String)
    (hgood : ∀ l ∈ E.map String.data, TokenShape l ∧ l.getLast? ≠ some '.')
    (hnodup : E.Nodup) (hne : E ≠ []) :
    extract_urls_from_text (listing E) = E := by
  have hlne : listing E ≠ "" := by
    intro hcon
    have hdat : joinSpace (E.map String.data) = [] := congrArg String.data hcon
    cases hL : E.map String.data with
    | nil => exact hne (List.map_eq_nil_iff.mp hL)
    | cons a rest =>
        rw [hL] at hdat
        have ha : TokenShape a := (hgood a (hL ▸ List.mem_cons_self a rest)).1
        have ha8 : 8 ≤ a.length := tokenShape_length a ha
        cases rest with
        | nil =>
            have hj : joinSpace [a] = a := rfl
            rw [hj] at hdat
            rw [hdat] at ha8
            simp at ha8
        | cons b rest' =>
            have hj : joinSpace (a :: b :: rest') =
                a ++ ' ' :: joinSpace (b :: rest') := rfl
            rw [hj] at hdat
            have hlen := congrArg List.length hdat
            rw [List.length_append] at hlen
            simp at hlen
  unfold extract_urls_from_text
  rw [if_neg hlne]
  dsimp only
  rw [extract_fold_eq, List.nil_append]
  have hfind : findall (listing E).data = E.map String.data := by
    show findallF _ _ = _
    exact findallF_listing _ (fun u hu => (hgood u hu).1) _ le_rfl
  rw [hfind]
  have hstep : ∀ l ∈ E.map String.data, extractStep l = some l := by
    intro l hl
    obtain ⟨hsh, hlast⟩ := hgood l hl
    have hstripeq : pyStrip l = l := pyStrip_eq_self l (tokenShape_no_ws l hsh)
    have hlne2 : l ≠ [] := by
      intro hcon
      have h8 := tokenShape_length l hsh
      rw [hcon] at h8
      simp at h8
    unfold extractStep
    dsimp only
    rw [hstripeq, if_pos ⟨hlne2, hlast⟩, tokenShape_normalize l hsh]
  rw [filterMap_eq_self _ _ hstep]
  have hnodupL : (E.map String.data).Nodup := by
    refine hnodup.map ?_
    intro a b hab
    exact congrArg String.mk hab
  rw [List.dedup_eq_self.mpr hnodupL, List.map_map]
  have hcomp : ((fun l => String.mk l) ∘ String.data) = id := funext (fun s => rfl)
  rw [hcomp, List.map_id]

/-- C8: URL extraction is idempotent on its own output: re-extracting from
a space-separated string listing of the extracted set yields exactly the
same result (even as a list, hence the same set). -/
theorem extract_idempotent (text : String) :
    extract_urls_from_text (listing (extract_urls_from_text text)) =
      extract_urls_from_text text := by
  by_cases hE : extract_urls_from_text text = []
  · rw [hE]
    rfl
  · refine extract_listing_exact (extract_urls_from_text text) ?_ (extract_nodup text) hE
    intro l hl
    obtain ⟨s, hs, hse⟩ := List.mem_map.mp hl
    rw [← hse]
    exact extract_mem_good text s hs
